import Mathlib

/-!
Verification of the pure logic of `FirestickRemote.py`.

Strings are modelled as `List Char`.  Python operations used by the program
(`str.strip`, `str.lstrip`, `str.split`, `int`, tuple comparison) are embedded
as executable Lean functions on character lists; the ASCII fragment of their
behaviour is modelled, which covers every input the program manipulates.
-/

namespace FirestickRemote

/-- Characters treated as whitespace by Python's `str.strip` (ASCII range). -/
def wsChar (c : Char) : Bool :=
  c = ' ' || c = '\t' || c = '\n' || c = '\r' || c = '\x0b' || c = '\x0c'

/-- Left half of Python `str.strip()`: drop leading whitespace. -/
def ldropWs (l : List Char) : List Char := l.dropWhile wsChar

/-- Right half of Python `str.strip()`: drop trailing whitespace. -/
def rdropWs (l : List Char) : List Char := (l.reverse.dropWhile wsChar).reverse

/-- Embedding of Python `str.strip()`. -/
def pyStrip (l : List Char) : List Char := rdropWs (ldropWs l)

/-- Embedding of Python `str.lstrip(cs)`: drop leading characters that belong
to the character set `cs`. -/
def pyLstrip (cs : List Char) (l : List Char) : List Char :=
  l.dropWhile (fun c => cs.contains c)

/-- Embedding of Python `str.split(sep)` for a one-character separator: the
empty string yields `[""]`, and consecutive separators yield empty groups. -/
def splitOnChar (sep : Char) : List Char → List (List Char)
  | [] => [[]]
  | c :: r =>
    if c = sep then [] :: splitOnChar sep r
    else
      match splitOnChar sep r with
      | [] => [[c]]
      | g :: gs => (c :: g) :: gs

/-- Numeric value of an ASCII digit character. -/
def digitVal (c : Char) : Nat := c.toNat - 48

/-- Continuation of a Python integer literal after its first digit: ASCII
digits with single underscores allowed between digits. -/
def pyDigitsGo : Nat → List Char → Option Nat
  | acc, [] => some acc
  | acc, '_' :: c :: r =>
    if c.isDigit then pyDigitsGo (acc * 10 + digitVal c) r else none
  | _, ['_'] => none
  | acc, c :: r =>
    if c.isDigit then pyDigitsGo (acc * 10 + digitVal c) r else none

/-- Unsigned digit string of a Python integer literal. -/
def pyDigits : List Char → Option Nat
  | [] => none
  | c :: r => if c.isDigit then pyDigitsGo (digitVal c) r else none

/-- Embedding of Python `int(s)` (ASCII model): optional surrounding
whitespace, an optional sign, then a nonempty digit string; `none` models a
raised `ValueError`. -/
def pyInt (s : List Char) : Option Int :=
  match pyStrip s with
  | '+' :: r => (pyDigits r).map (fun n => (n : Int))
  | '-' :: r => (pyDigits r).map (fun n => -(n : Int))
  | r => (pyDigits r).map (fun n => (n : Int))

/-- Value of one version segment in `_version_tuple`: `int(p)` with a
`ValueError` turned into `0`. -/
def segVal (p : List Char) : Int := (pyInt p).getD 0

/-- The constant `APP_VERSION` of the program. -/
def APP_VERSION : List Char := "1.2.5".toList

/-- The constant `BIN_REQUIRED_VERSION` of the program. -/
def BIN_REQUIRED_VERSION : List Char := "1.0.0".toList

/-- Embedding of `_version_tuple`: strip, remove leading letters v, split on
dots, convert every segment with `int`, non-numeric segments becoming zero. -/
def _version_tuple (v : List Char) : List Int :=
  (splitOnChar '.' (pyLstrip ['v'] (pyStrip v))).map segVal

/-- Python `<` on integer tuples: lexicographic, a strict prefix is smaller. -/
def pyTupleLt : List Int → List Int → Bool
  | [], [] => false
  | [], _ :: _ => true
  | _ :: _, [] => false
  | a :: as, b :: bs => if a < b then true else if a = b then pyTupleLt as bs else false

/-- Python `>=` on integer tuples. -/
def pyTupleGe (a b : List Int) : Bool := !pyTupleLt a b

/-- Python `<=` on integer tuples. -/
def pyTupleLe (a b : List Int) : Bool := !pyTupleLt b a

/-- Embedding of `bin_is_compatible`, parameterised by the contents of
`bin_version.txt` as returned by `read_bin_version` (the empty string when the
file is missing or unreadable). -/
def bin_is_compatible (found : List Char) : Bool :=
  if found = [] then false
  else pyTupleGe (_version_tuple found) (_version_tuple BIN_REQUIRED_VERSION)

/-- Removal of the leading run of letter-v characters, written independently
of `pyLstrip`, following the specification's description of the parser. -/
def stripLeadingVs : List Char → List Char
  | [] => []
  | c :: r => if c = 'v' then stripLeadingVs r else c :: r

/-- Version parsing as the specification words it: surrounding whitespace
stripped, the leading v removed, split on dots, each segment mapped to its
integer value with every non-numeric segment becoming zero. -/
def version_tuple_spec (v : List Char) : List Int :=
  (splitOnChar '.' (stripLeadingVs (pyStrip v))).map segVal

/-- Lexicographic greater-or-equal on integer tuples, written directly as the
specification describes the compatibility comparison. -/
def lexGe : List Int → List Int → Bool
  | _, [] => true
  | [], _ :: _ => false
  | a :: as, b :: bs => if b < a then true else if a = b then lexGe as bs else false

lemma pyLstrip_v_eq_stripLeadingVs (l : List Char) :
    pyLstrip ['v'] l = stripLeadingVs l := by
  induction l with
  | nil => rfl
  | cons c r ih =>
    by_cases h : c = 'v'
    · subst h
      simp [pyLstrip, stripLeadingVs, List.dropWhile] at ih ⊢
      exact ih
    · simp [pyLstrip, stripLeadingVs, List.dropWhile, h, List.contains]

lemma version_tuple_spec_eq (v : List Char) :
    _version_tuple v = version_tuple_spec v := by
  unfold _version_tuple version_tuple_spec
  rw [pyLstrip_v_eq_stripLeadingVs]

lemma lexGe_eq_not_pyTupleLt (a b : List Int) :
    lexGe a b = !pyTupleLt a b := by
  induction a generalizing b with
  | nil =>
    cases b with
    | nil => rfl
    | cons y ys => rfl
  | cons x xs ih =>
    cases b with
    | nil => rfl
    | cons y ys =>
      rcases lt_trichotomy x y with h | h | h
      · have h1 : ¬ y < x := not_lt_of_gt h
        have h2 : x ≠ y := ne_of_lt h
        simp [lexGe, pyTupleLt, h, h1, h2]
      · subst h
        simp [lexGe, pyTupleLt, ih]
      · have h1 : ¬ x < y := not_lt_of_gt h
        have h2 : x ≠ y := (ne_of_lt h).symm
        simp [lexGe, pyTupleLt, h, h1, h2]

/-- C1.  `_version_tuple` strips surrounding whitespace and the leading v,
splits on dots and maps every segment to its integer value with non-numeric
segments becoming zero (stated as agreement with `version_tuple_spec`, which
is built directly from that description); and `bin_is_compatible` holds
exactly when the installed bin version string is nonempty and its tuple is
lexicographically greater than or equal to the tuple of
`BIN_REQUIRED_VERSION`. -/
theorem c1_version_tuple_and_bin_compat :
    (∀ v : List Char, _version_tuple v = version_tuple_spec v) ∧
    (∀ found : List Char,
      bin_is_compatible found = true ↔
        found ≠ [] ∧
          lexGe (version_tuple_spec found)
            (version_tuple_spec BIN_REQUIRED_VERSION) = true) := by
  refine ⟨version_tuple_spec_eq, fun found => ?_⟩
  unfold bin_is_compatible pyTupleGe
  rw [← version_tuple_spec_eq, ← version_tuple_spec_eq, lexGe_eq_not_pyTupleLt]
  by_cases h : found = []
  · simp [h]
  · simp [h]

/-- Observations `_validate_downloaded_exe` makes of the downloaded file:
whether the path exists, the size reported by `os.path.getsize`, and the first
two bytes returned by `f.read(2)`. -/
structure FileObs where
  present : Bool
  size : Nat
  first2 : List Nat

/-- Result of `_validate_downloaded_exe`: `ok` models a normal return, the
other constructors model the three `RuntimeError` raises. -/
inductive ValidateResult
  | ok
  | errMissing
  | errTooSmall
  | errBadSig
deriving DecidableEq

/-- The two-byte DOS executable signature `b"MZ"`. -/
def MZ_SIG : List Nat := [77, 90]

/-- Embedding of `_validate_downloaded_exe`.  The function only reads the
file, so it is modelled as a pure function of the observations. -/
def _validate_downloaded_exe (f : FileObs) : ValidateResult :=
  if f.present = false then .errMissing
  else if f.size < 1024 * 200 then .errTooSmall
  else if f.first2 ≠ MZ_SIG then .errBadSig
  else .ok

/-- C4.  `_validate_downloaded_exe` raises exactly when the file is missing,
smaller than 204800 bytes, or its first two bytes differ from the MZ
signature; otherwise it returns normally. -/
theorem c4_validate_downloaded_exe (f : FileObs) :
    _validate_downloaded_exe f ≠ ValidateResult.ok ↔
      f.present = false ∨ f.size < 204800 ∨ f.first2 ≠ [77, 90] := by
  unfold _validate_downloaded_exe MZ_SIG
  split_ifs with h1 h2 h3 <;> simp_all

/-- Outcome of the `subprocess.run` call inside `run_adb_command`:
a completed process, a raised `FileNotFoundError`, or any other raised
exception (including `TimeoutExpired`), with its message. -/
inductive SubprocOutcome
  | completed (returncode : Int) (stdout stderr : List Char)
  | fileNotFound
  | raised (msg : List Char)

/-- The timeout, in seconds, passed to every `subprocess.run` call made by
`run_adb_command`. -/
def ADB_TIMEOUT_SECONDS : Nat := 30

/-- Stand-in for the resolved adb executable path returned by `adb_path`. -/
def adb_exe : List Char := "adb".toList

/-- Error message returned when the adb executable is missing. -/
def ADB_NOT_FOUND_MSG : List Char :=
  ("adb executable not found.\n\nMake sure bin/adb.exe is next to " ++
    "FirestickRemote.exe, or add adb to your PATH.").toList

/-- Embedding of `run_adb_command`.  The subprocess layer is abstracted as a
function `exec` from the command line and the timeout to an outcome; every
exception path of the source returns a triple instead of propagating. -/
def run_adb_command (exec : List (List Char) → Nat → SubprocOutcome)
    (args : List (List Char)) : Bool × List Char × List Char :=
  match exec (adb_exe :: args) ADB_TIMEOUT_SECONDS with
  | .completed rc out err => (rc == 0, pyStrip out, pyStrip err)
  | .fileNotFound => (false, [], ADB_NOT_FOUND_MSG)
  | .raised msg => (false, [], msg)

/-- C7.  `run_adb_command` is a total function of the subprocess outcome (no
exception propagates), it always consults the subprocess layer with the fixed
30-second timeout, and the returned flag is true exactly when the subprocess
completed with exit code 0. -/
theorem c7_run_adb_command (exec : List (List Char) → Nat → SubprocOutcome)
    (args : List (List Char)) :
    ADB_TIMEOUT_SECONDS = 30 ∧
      ((run_adb_command exec args).1 = true ↔
        ∃ out err, exec (adb_exe :: args) 30 = .completed 0 out err) := by
  refine ⟨rfl, ?_⟩
  unfold run_adb_command ADB_TIMEOUT_SECONDS
  cases h : exec (adb_exe :: args) 30 with
  | completed rc out err =>
    simp only [h]
    constructor
    · intro hrc
      refine ⟨out, err, ?_⟩
      have : rc = 0 := by
        have := of_decide_eq_true (by simpa using hrc)
        simpa using this
      simp [this]
    · rintro ⟨o, e, he⟩
      cases he
      simp
  | fileNotFound => simp [h]
  | raised msg => simp [h]

/-- Environment of one run of the `check_updates` worker after the release
and `manifest.json` were fetched successfully: the two manifest version
fields, which assets the release offers, the user's choice in the
confirmation dialog, whether the exe download-and-validate try block
succeeds, the installed bin version (empty when `bin_version.txt` is
missing), whether the bin download-and-apply try block succeeds, and whether
the program runs as a frozen executable. -/
structure UpdateEnv where
  app_version : List Char
  bin_required_version : List Char
  exe_asset_present : Bool
  user_confirms : Bool
  exe_ok : Bool
  installed_bin : List Char
  bin_asset_present : Bool
  bin_ok : Bool
  frozen : Bool

/-- A file download started by the update flow. -/
inductive DL
  | exe
  | binzip
deriving DecidableEq

/-- Final report of one run of the update flow. -/
inductive UpdateOutcome
  | errMissingAppVersion
  | upToDate
  | errMissingExeAsset
  | cancelled
  | errExe
  | errNoBinAsset
  | errBinApply
  | downloadedNoSwap
  | swapScheduled
deriving DecidableEq

/-- The manifest `app_version` as normalised at the top of the worker. -/
def latest_app (e : UpdateEnv) : List Char := pyLstrip ['v'] (pyStrip e.app_version)

/-- The manifest `bin_required_version` as normalised by the worker. -/
def latest_bin_req (e : UpdateEnv) : List Char := pyStrip e.bin_required_version

/-- The bin-update condition of `do_update`: `latest_bin_req` is truthy and
the installed bin version (or `"0.0.0"` when empty) compares strictly below
it as a version tuple. -/
def needs_bin_update (e : UpdateEnv) : Bool :=
  !(latest_bin_req e).isEmpty &&
    pyTupleLt
      (_version_tuple (if e.installed_bin = [] then "0.0.0".toList else e.installed_bin))
      (_version_tuple (latest_bin_req e))

/-- Embedding of the decision structure of `check_updates` and its nested
`do_update`: the final report together with the list of downloads started,
in order. -/
def check_updates_flow (e : UpdateEnv) : UpdateOutcome × List DL :=
  if latest_app e = [] then (.errMissingAppVersion, [])
  else if pyTupleLe (_version_tuple (latest_app e)) (_version_tuple APP_VERSION) then
    (.upToDate, [])
  else if e.exe_asset_present = false then (.errMissingExeAsset, [])
  else if e.user_confirms = false then (.cancelled, [])
  else if e.exe_ok = false then (.errExe, [.exe])
  else if needs_bin_update e then
    if e.bin_asset_present = false then (.errNoBinAsset, [.exe])
    else if e.bin_ok = false then (.errBinApply, [.exe, .binzip])
    else if e.frozen = false then (.downloadedNoSwap, [.exe, .binzip])
    else (.swapScheduled, [.exe, .binzip])
  else if e.frozen = false then (.downloadedNoSwap, [.exe])
  else (.swapScheduled, [.exe])

/-- C2.  The update flow reports up to date and downloads nothing whenever
the manifest app version (nonempty after normalisation) compares less than
or equal to `APP_VERSION` as a version tuple; and the bin zip is downloaded
only when the manifest bin requirement is nonempty and strictly greater, as
a version tuple, than the installed bin version, with an empty installed
version treated as `"0.0.0"`. -/
theorem c2_update_flow_conditional_downloads (e : UpdateEnv) :
    (latest_app e ≠ [] →
      pyTupleLe (_version_tuple (latest_app e)) (_version_tuple APP_VERSION) = true →
      check_updates_flow e = (UpdateOutcome.upToDate, [])) ∧
    (DL.binzip ∈ (check_updates_flow e).2 →
      latest_bin_req e ≠ [] ∧
        pyTupleLt
          (_version_tuple
            (if e.installed_bin = [] then "0.0.0".toList else e.installed_bin))
          (_version_tuple (latest_bin_req e)) = true) := by
  constructor
  · intro h1 h2
    unfold check_updates_flow
    rw [if_neg h1, if_pos h2]
  · intro hmem
    have hneed : needs_bin_update e = true := by
      by_contra hno
      have hno' : needs_bin_update e = false := by
        cases h : needs_bin_update e
        · rfl
        · exact absurd h hno
      unfold check_updates_flow at hmem
      split_ifs at hmem <;> simp_all
    have hconj := hneed
    unfold needs_bin_update at hconj
    rw [Bool.and_eq_true] at hconj
    refine ⟨?_, hconj.2⟩
    have := hconj.1
    simp only [Bool.not_eq_true', List.isEmpty_eq_false_iff_exists_mem] at this
    rcases this with ⟨x, hx⟩
    intro hnil
    rw [hnil] at hx
    exact absurd hx (List.not_mem_nil x)

/-- Concrete environment exercising the up-to-date branch of the flow. -/
def c2EnvUpToDate : UpdateEnv :=
  ⟨"1.0.0".toList, [], true, true, true, [], true, true, false⟩

/-- Concrete environment exercising the bin-download branch of the flow. -/
def c2EnvBin : UpdateEnv :=
  ⟨"2.0.0".toList, "1.1.0".toList, true, true, true, [], true, true, false⟩

theorem c2_update_flow_witness :
    check_updates_flow c2EnvUpToDate = (UpdateOutcome.upToDate, []) ∧
      (latest_bin_req c2EnvBin ≠ [] ∧
        pyTupleLt
          (_version_tuple
            (if c2EnvBin.installed_bin = [] then "0.0.0".toList
             else c2EnvBin.installed_bin))
          (_version_tuple (latest_bin_req c2EnvBin)) = true) :=
  ⟨(c2_update_flow_conditional_downloads c2EnvUpToDate).1 (by decide) (by decide),
    (c2_update_flow_conditional_downloads c2EnvBin).2 (by decide)⟩

/-- Boolean list-prefix test. -/
def isPre {α : Type} [DecidableEq α] : List α → List α → Bool
  | [], _ => true
  | _ :: _, [] => false
  | a :: as, b :: bs => if a = b then isPre as bs else false

lemma isPre_self_append {α : Type} [DecidableEq α] (l t : List α) :
    isPre l (l ++ t) = true := by
  induction l with
  | nil => rfl
  | cons a as ih => simp [isPre, ih]

lemma isPre_refl {α : Type} [DecidableEq α] (l : List α) : isPre l l = true := by
  simpa using isPre_self_append l []

lemma isPre_append_right {α : Type} [DecidableEq α] (b : List α) :
    ∀ a t : List α, isPre b a = true → isPre b (a ++ t) = true := by
  induction b with
  | nil => intro a t _; rfl
  | cons x xs ih =>
    intro a t h
    cases a with
    | nil => simp [isPre] at h
    | cons y ys =>
      simp only [List.cons_append, isPre] at h ⊢
      by_cases hxy : x = y
      · rw [if_pos hxy] at h ⊢
        exact ih ys t h
      · rw [if_neg hxy] at h
        exact absurd h (by simp)

/-- Replacement of backslashes by slashes, as the extraction loop normalises
each member name. -/
def normSlash (name : List Char) : List Char :=
  name.map (fun c => if c = '\\' then '/' else c)

/-- Path segments of a slash-separated name, as Python `name.split("/")`. -/
def splitSegs (l : List Char) : List (List Char) := splitOnChar '/' l

def startsWithSlash : List Char → Bool
  | '/' :: _ => true
  | _ => false

/-- The guard of `apply_bin_update`: a member is skipped when its normalised
name starts with a slash or has a dot-dot segment. -/
def zipSkip (name : List Char) : Bool :=
  startsWithSlash name || decide (['.', '.'] ∈ splitSegs name)

/-- Lowercasing, as Python `str.lower()` on ASCII strings. -/
def lowerL (l : List Char) : List Char := l.map Char.toLower

/-- Embedding of the root split used by `ntpath.join` for slash-normalised
paths (backslash and slash both count as the separator and are written here
as the slash): the Windows drive designator (one character followed by a
colon), the root separator, and the remaining path part.  UNC prefixes are
not parsed as drives; the guard skips every name starting with a slash, so
none reaches the join below as a second argument. -/
def ntSplitroot : List Char → List Char × List Char × List Char
  | [] => ([], [], [])
  | [c1] => if c1 = '/' then ([], ['/'], []) else ([], [], [c1])
  | c1 :: c2 :: rest =>
    if c1 = '/' then ([], ['/'], c2 :: rest)
    else if c2 = ':' then
      if rest.head? = some '/' then ([c1, ':'], ['/'], rest.tail)
      else ([c1, ':'], [], rest)
    else ([], [], c1 :: c2 :: rest)

/-- Relative concatenation of two path parts: a separator is inserted when
the left part is nonempty and does not already end with one. -/
def joinRel (ap bp : List Char) : List Char :=
  if ap ≠ [] ∧ ¬ap.getLast? = some '/' then ap ++ '/' :: bp else ap ++ bp

/-- Embedding of `os.path.join(a, b)` under Windows (`ntpath`) semantics for
slash-normalised paths: a rooted second argument replaces everything but
(possibly) the drive, a second argument carrying a different drive discards
the first path entirely, a drive equal up to case resets the drive spelling,
and only a driveless rootless second argument is appended relative to the
first. -/
def ntJoin (a b : List Char) : List Char :=
  let sa := ntSplitroot a
  let sb := ntSplitroot b
  if sb.2.1 ≠ [] then
    (if sb.1 ≠ [] ∨ sa.1 = [] then sb.1 else sa.1) ++ sb.2.1 ++ sb.2.2
  else if sb.1 ≠ [] ∧ sb.1 ≠ sa.1 then
    if ¬lowerL sb.1 = lowerL sa.1 then sb.1 ++ sb.2.2
    else sb.1 ++ sa.2.1 ++ joinRel sa.2.2 sb.2.2
  else sa.1 ++ sa.2.1 ++ joinRel sa.2.2 sb.2.2

/-- Behaviour of the extraction loop on one member: `none` when the member is
skipped, otherwise the target path written, `os.path.join(bin_dir, name)`
under Windows path semantics. -/
def writeTarget (bin_dir : List Char) (m : List Char) : Option (List Char) :=
  let name := normSlash m
  if zipSkip name then none else some (ntJoin bin_dir name)

/-- Embedding of `apply_bin_update`: the list of target paths written when
extracting the archive members into `bin_dir`. -/
def apply_bin_update (bin_dir : List Char) (members : List (List Char)) :
    List (List Char) :=
  members.filterMap (writeTarget bin_dir)

/-- Resolution of relative path segments against an already-resolved base:
a dot-dot segment pops one directory, empty and dot segments are dropped. -/
def resolveSegs : List (List Char) → List (List Char) → List (List Char)
  | acc, [] => acc
  | acc, s :: rest =>
    if s = ['.', '.'] then resolveSegs acc.dropLast rest
    else if s = [] ∨ s = ['.'] then resolveSegs acc rest
    else resolveSegs (acc ++ [s]) rest

/-- A written path lies under the bin directory: it extends the bin
directory's segments, and resolving its relative segments never escapes
them. -/
def safeUnder (bin_dir p : List Char) : Bool :=
  let b := splitSegs bin_dir
  let sp := splitSegs p
  isPre b sp && isPre b (resolveSegs b (sp.drop b.length))

lemma isPre_resolveSegs (segs : List (List Char)) :
    ∀ acc base : List (List Char), isPre base acc = true → ['.', '.'] ∉ segs →
      isPre base (resolveSegs acc segs) = true := by
  induction segs with
  | nil =>
    intro acc base h _
    simpa [resolveSegs] using h
  | cons s rest ih =>
    intro acc base h hnm
    have hs : ¬s = ['.', '.'] := by
      intro hh
      exact hnm (hh ▸ List.mem_cons_self s rest)
    have hnm' : ['.', '.'] ∉ rest := fun hh => hnm (List.mem_cons_of_mem _ hh)
    unfold resolveSegs
    rw [if_neg hs]
    by_cases h2 : s = [] ∨ s = ['.']
    · rw [if_pos h2]
      exact ih acc base h hnm'
    · rw [if_neg h2]
      exact ih (acc ++ [s]) base (isPre_append_right base acc [s] h) hnm'

lemma splitOnChar_ne_nil (sep : Char) (l : List Char) : splitOnChar sep l ≠ [] := by
  cases l with
  | nil => simp [splitOnChar]
  | cons c r =>
    unfold splitOnChar
    by_cases h : c = sep
    · simp [h]
    · rw [if_neg h]
      cases splitOnChar sep r <;> simp

lemma splitOnChar_cons_sep (sep : Char) (r : List Char) :
    splitOnChar sep (sep :: r) = [] :: splitOnChar sep r := by
  simp [splitOnChar]

lemma splitOnChar_cons_ne (sep c : Char) (h : ¬c = sep) (r : List Char) :
    splitOnChar sep (c :: r) =
      match splitOnChar sep r with
      | [] => [[c]]
      | g :: gs => (c :: g) :: gs := by
  rw [splitOnChar, if_neg h]

lemma splitOnChar_append (sep : Char) (a b : List Char) :
    splitOnChar sep (a ++ sep :: b) = splitOnChar sep a ++ splitOnChar sep b := by
  induction a with
  | nil => simp [splitOnChar_cons_sep, splitOnChar]
  | cons c r ih =>
    by_cases h : c = sep
    · subst h
      rw [List.cons_append, splitOnChar_cons_sep, splitOnChar_cons_sep, ih,
        List.cons_append]
    · rw [List.cons_append, splitOnChar_cons_ne sep c h, splitOnChar_cons_ne sep c h,
        ih]
      cases hs : splitOnChar sep r with
      | nil => exact absurd hs (splitOnChar_ne_nil sep r)
      | cons g gs => simp

lemma ntSplitroot_reassemble (p : List Char) :
    (ntSplitroot p).1 ++ (ntSplitroot p).2.1 ++ (ntSplitroot p).2.2 = p := by
  cases p with
  | nil => rfl
  | cons c1 p1 =>
    cases p1 with
    | nil =>
      by_cases h : c1 = '/'
      · simp [ntSplitroot, h]
      · simp [ntSplitroot, h]
    | cons c2 rest =>
      by_cases h1 : c1 = '/'
      · simp [ntSplitroot, h1]
      · by_cases h2 : c2 = ':'
        · cases rest with
          | nil => simp [ntSplitroot, h1, h2]
          | cons r0 rs =>
            by_cases h3 : r0 = '/'
            · simp [ntSplitroot, h1, h2, h3]
            · simp [ntSplitroot, h1, h2, h3]
        · simp [ntSplitroot, h1, h2]

lemma ntSplitroot_relative (b : List Char) (h1 : startsWithSlash b = false)
    (h2 : (ntSplitroot b).1 = []) : ntSplitroot b = ([], [], b) := by
  cases b with
  | nil => rfl
  | cons c1 b1 =>
    have hc : ¬c1 = '/' := by
      intro hh
      subst hh
      simp [startsWithSlash] at h1
    cases b1 with
    | nil => simp [ntSplitroot, hc]
    | cons c2 rest =>
      by_cases hcol : c2 = ':'
      · exfalso
        rw [show ntSplitroot (c1 :: c2 :: rest) =
            (if rest.head? = some '/' then ([c1, ':'], ['/'], rest.tail)
             else ([c1, ':'], [], rest)) from by simp [ntSplitroot, hc, hcol]] at h2
        by_cases hr : rest.head? = some '/'
        · rw [if_pos hr] at h2
          simp at h2
        · rw [if_neg hr] at h2
          simp at h2
      · simp [ntSplitroot, hc, hcol]

lemma ntJoin_relative (a b : List Char) (hb1 : startsWithSlash b = false)
    (hb2 : (ntSplitroot b).1 = []) (ha1 : (ntSplitroot a).2.2 ≠ [])
    (ha2 : ¬(ntSplitroot a).2.2.getLast? = some '/') :
    ntJoin a b = a ++ '/' :: b := by
  have hb := ntSplitroot_relative b hb1 hb2
  rw [show ntJoin a b =
      (ntSplitroot a).1 ++ (ntSplitroot a).2.1 ++
        joinRel (ntSplitroot a).2.2 b from by
    simp only [ntJoin, hb]
    rw [if_neg (by simp), if_neg (by simp)]]
  unfold joinRel
  rw [if_pos ⟨ha1, ha2⟩]
  rw [show (ntSplitroot a).1 ++ (ntSplitroot a).2.1 ++
      ((ntSplitroot a).2.2 ++ '/' :: b) =
      ((ntSplitroot a).1 ++ (ntSplitroot a).2.1 ++ (ntSplitroot a).2.2) ++
        '/' :: b from by
    rw [List.append_assoc, List.append_assoc, List.append_assoc]]
  rw [ntSplitroot_reassemble]

/-- C3 counterexample.  A member named with a Windows drive designator, here
`C:/evil.exe`, passes the guard of `apply_bin_update` (it does not start
with a slash and has no dot-dot segment), yet under Windows `os.path.join`
semantics it is written at the root of the drive, outside the bin
directory. -/
theorem c3_zip_extraction_counterexample :
    zipSkip (normSlash "C:/evil.exe".toList) = false ∧
      apply_bin_update "C:/app/bin".toList ["C:/evil.exe".toList] =
        ["C:/evil.exe".toList] ∧
      safeUnder "C:/app/bin".toList "C:/evil.exe".toList = false := by
  exact ⟨by decide, by decide, by decide⟩

/-- C3 amended.  Every archive member whose normalised name starts with a
slash or has a dot-dot segment is skipped and writes nothing; every other
member is written at the Windows join of the bin directory and its
archive-relative name; and, for a bin directory whose path part is nonempty
and does not end in a separator, every written member whose name carries no
drive designator stays inside the bin directory under segment resolution (a
drive-designator name, as in the counterexample, can land outside). -/
theorem c3_zip_extraction_amended (bin_dir : List Char)
    (members : List (List Char))
    (hbin1 : (ntSplitroot bin_dir).2.2 ≠ [])
    (hbin2 : ¬(ntSplitroot bin_dir).2.2.getLast? = some '/') :
    (∀ m, zipSkip (normSlash m) = true → writeTarget bin_dir m = none) ∧
    (∀ m, zipSkip (normSlash m) = false →
      writeTarget bin_dir m = some (ntJoin bin_dir (normSlash m))) ∧
    (apply_bin_update bin_dir
        (members.filter (fun m => (ntSplitroot (normSlash m)).1.isEmpty))).all
      (safeUnder bin_dir) = true := by
  refine ⟨fun m h => by simp [writeTarget, h], fun m h => by simp [writeTarget, h], ?_⟩
  rw [List.all_eq_true]
  intro p hp
  rw [apply_bin_update, List.mem_filterMap] at hp
  rcases hp with ⟨m, hmem, hm⟩
  rw [List.mem_filter] at hmem
  have hdrive : (ntSplitroot (normSlash m)).1 = [] := by
    have h2 := hmem.2
    cases hcase : (ntSplitroot (normSlash m)).1 with
    | nil => rfl
    | cons x xs =>
      rw [hcase] at h2
      simp at h2
  simp only [writeTarget] at hm
  by_cases hskip : zipSkip (normSlash m) = true
  · rw [if_pos hskip] at hm
    cases hm
  · rw [if_neg hskip] at hm
    injection hm with hm
    subst hm
    have hskip' : zipSkip (normSlash m) = false := by simpa using hskip
    have hor := hskip'
    unfold zipSkip at hor
    rw [Bool.or_eq_false_iff] at hor
    have hnodd : ['.', '.'] ∉ splitSegs (normSlash m) := of_decide_eq_false hor.2
    rw [ntJoin_relative bin_dir (normSlash m) hor.1 hdrive hbin1 hbin2]
    unfold safeUnder splitSegs
    rw [splitOnChar_append]
    simp only [List.drop_left]
    rw [isPre_self_append, isPre_resolveSegs (splitOnChar '/' (normSlash m))
      (splitOnChar '/' bin_dir) (splitOnChar '/' bin_dir) (isPre_refl _) hnodd]
    rfl

theorem c3_zip_extraction_amended_witness :
    writeTarget "C:/app/bin".toList "..\\evil.dll".toList = none ∧
      writeTarget "C:/app/bin".toList "sub\\tool.exe".toList =
        some (ntJoin "C:/app/bin".toList (normSlash "sub\\tool.exe".toList)) ∧
      (apply_bin_update "C:/app/bin".toList
          ((["..\\evil.dll".toList, "sub\\tool.exe".toList]).filter
            (fun m => (ntSplitroot (normSlash m)).1.isEmpty))).all
        (safeUnder "C:/app/bin".toList) = true :=
  ⟨(c3_zip_extraction_amended "C:/app/bin".toList
      ["..\\evil.dll".toList, "sub\\tool.exe".toList] (by decide) (by decide)).1
      "..\\evil.dll".toList (by decide),
    (c3_zip_extraction_amended "C:/app/bin".toList
      ["..\\evil.dll".toList, "sub\\tool.exe".toList] (by decide) (by decide)).2.1
      "sub\\tool.exe".toList (by decide),
    (c3_zip_extraction_amended "C:/app/bin".toList
      ["..\\evil.dll".toList, "sub\\tool.exe".toList] (by decide) (by decide)).2.2⟩

/-- Embedding of Python `str.isdigit()` on ASCII strings: nonempty and all
digits. -/
def isdigitB (l : List Char) : Bool := !l.isEmpty && l.all Char.isDigit

/-- Embedding of `_valid_ip`.  The fullmatch of the regular expression (one
to three digits, four groups separated by dots) is embedded as a shape check
on the dot-split groups; then every group's integer value must lie between 0
and 255. -/
def _valid_ip (ip : List Char) : Bool :=
  let parts := splitOnChar '.' ip
  if parts.length = 4 ∧ ∀ p ∈ parts, 1 ≤ p.length ∧ p.length ≤ 3 ∧ p.all Char.isDigit then
    parts.all (fun p => decide ((0 : Int) ≤ (pyInt p).getD 0 ∧ (pyInt p).getD 0 ≤ 255))
  else false

/-- Embedding of `_valid_port`: all digits, and between 1 and 65535. -/
def _valid_port (port : List Char) : Bool :=
  if isdigitB port then
    decide ((1 : Int) ≤ (pyInt port).getD 0 ∧ (pyInt port).getD 0 ≤ 65535)
  else false

/-- Action taken by `connect()` before any worker thread is started. -/
inductive ConnectAction
  | binUpdateError
  | emptyIpError
  | invalidIpError
  | invalidPortError
  | launch (target : List Char)
deriving DecidableEq

/-- The default port substituted when the port field is blank. -/
def DEFAULT_PORT : List Char := "5555".toList

/-- The port `connect()` validates: the stripped entry, or `"5555"` when the
stripped entry is empty, stripped again. -/
def effective_port (portRaw : List Char) : List Char :=
  pyStrip (if pyStrip portRaw = [] then DEFAULT_PORT else pyStrip portRaw)

/-- Embedding of the validation prefix of `connect()`: the bin compatibility
gate, the empty-IP check, `_valid_ip`, `_valid_port`, and finally the launch
of `adb connect ip:port`. -/
def connect_decision (foundBin ipRaw portRaw : List Char) : ConnectAction :=
  if bin_is_compatible foundBin = false then .binUpdateError
  else if pyStrip ipRaw = [] then .emptyIpError
  else if _valid_ip (pyStrip ipRaw) = false then .invalidIpError
  else if _valid_port (effective_port portRaw) = false then .invalidPortError
  else .launch (pyStrip ipRaw ++ ':' :: effective_port portRaw)

/-- Every action other than a launch shows a modal error dialog. -/
def isErrorDialog : ConnectAction → Bool
  | .launch _ => false
  | _ => true

/-- C5.  `connect()` launches `adb connect` only when the (stripped) IP entry
passes `_valid_ip` and the effective port passes `_valid_port`; whenever
either check fails, an error dialog is shown and no adb subprocess is
launched. -/
theorem c5_connect_validation (foundBin ipRaw portRaw : List Char) :
    (∀ t, connect_decision foundBin ipRaw portRaw = ConnectAction.launch t →
      _valid_ip (pyStrip ipRaw) = true ∧
        _valid_port (effective_port portRaw) = true) ∧
    ((_valid_ip (pyStrip ipRaw) = false ∨
        _valid_port (effective_port portRaw) = false) →
      isErrorDialog (connect_decision foundBin ipRaw portRaw) = true) := by
  unfold connect_decision
  split_ifs with h1 h2 h3 h4
  · exact ⟨fun t ht => absurd ht (by simp), fun _ => rfl⟩
  · exact ⟨fun t ht => absurd ht (by simp), fun _ => rfl⟩
  · exact ⟨fun t ht => absurd ht (by simp), fun _ => rfl⟩
  · exact ⟨fun t ht => absurd ht (by simp), fun _ => rfl⟩
  · have hip : _valid_ip (pyStrip ipRaw) = true := by
      revert h3
      cases _valid_ip (pyStrip ipRaw) <;> simp
    have hport : _valid_port (effective_port portRaw) = true := by
      revert h4
      cases _valid_port (effective_port portRaw) <;> simp
    refine ⟨fun t _ => ⟨hip, hport⟩, fun hbad => ?_⟩
    rcases hbad with hbad | hbad
    · exact absurd hbad (by rw [hip]; simp)
    · exact absurd hbad (by rw [hport]; simp)

theorem c5_connect_validation_witness :
    (_valid_ip (pyStrip "192.168.1.50".toList) = true ∧
      _valid_port (effective_port "".toList) = true) ∧
      isErrorDialog (connect_decision "1.0.0".toList "999.1.1.1".toList
        "5555".toList) = true :=
  ⟨(c5_connect_validation "1.0.0".toList "192.168.1.50".toList "".toList).1
      "192.168.1.50:5555".toList (by decide),
    (c5_connect_validation "1.0.0".toList "999.1.1.1".toList "5555".toList).2
      (Or.inl (by decide))⟩

/-- Substring test, as Python's `in` operator on strings. -/
def containsSub (needle : List Char) : List Char → Bool
  | [] => if isPre needle [] then true else false
  | c :: t => if isPre needle (c :: t) then true else containsSub needle t

lemma isPre_iff_exists {α : Type} [DecidableEq α] (n : List α) :
    ∀ h : List α, isPre n h = true ↔ ∃ t, h = n ++ t := by
  induction n with
  | nil =>
    intro h
    exact ⟨fun _ => ⟨h, rfl⟩, fun _ => rfl⟩
  | cons x xs ih =>
    intro h
    cases h with
    | nil =>
      constructor
      · intro hfalse
        exact absurd hfalse (by simp [isPre])
      · rintro ⟨t, ht⟩
        exact absurd ht (by simp)
    | cons y ys =>
      constructor
      · intro hp
        by_cases hxy : x = y
        · subst hxy
          rw [show isPre (x :: xs) (x :: ys) = isPre xs ys from by simp [isPre]] at hp
          rcases (ih ys).mp hp with ⟨t, ht⟩
          exact ⟨t, by rw [List.cons_append, ht]⟩
        · rw [show isPre (x :: xs) (y :: ys) = false from by simp [isPre, hxy]] at hp
          exact absurd hp (by simp)
      · rintro ⟨t, ht⟩
        rw [List.cons_append] at ht
        injection ht with h1 h2
        rw [show isPre (x :: xs) (y :: ys) = isPre xs ys from by simp [isPre, h1]]
        exact (ih ys).mpr ⟨t, h2⟩

lemma containsSub_iff (n : List Char) :
    ∀ h : List Char, containsSub n h = true ↔ ∃ a b, h = a ++ (n ++ b) := by
  intro h
  induction h with
  | nil =>
    unfold containsSub
    by_cases hp : isPre n [] = true
    · rw [if_pos hp]
      rcases (isPre_iff_exists n []).mp hp with ⟨t, ht⟩
      exact ⟨fun _ => ⟨[], t, by simpa using ht⟩, fun _ => rfl⟩
    · rw [if_neg hp]
      constructor
      · intro hfalse
        exact absurd hfalse (by simp)
      · rintro ⟨a, b, hab⟩
        exfalso
        apply hp
        rw [isPre_iff_exists]
        cases a with
        | nil => exact ⟨b, by simpa using hab⟩
        | cons x xs => simp at hab
  | cons c t ih =>
    unfold containsSub
    by_cases hp : isPre n (c :: t) = true
    · rw [if_pos hp]
      rcases (isPre_iff_exists n (c :: t)).mp hp with ⟨b, hb⟩
      exact ⟨fun _ => ⟨[], b, by simpa using hb⟩, fun _ => rfl⟩
    · rw [if_neg hp]
      rw [ih]
      constructor
      · rintro ⟨a, b, hab⟩
        exact ⟨c :: a, b, by simp [hab]⟩
      · rintro ⟨a, b, hab⟩
        cases a with
        | nil =>
          exfalso
          apply hp
          rw [isPre_iff_exists]
          exact ⟨b, by simpa using hab⟩
        | cons x xs =>
          simp only [List.cons_append] at hab
          injection hab with _ hab
          exact ⟨xs, b, hab⟩

/-- The `DANGEROUS_KEYWORDS` constant of the program. -/
def DANGEROUS_KEYWORDS : List (List Char) :=
  ["reboot".toList, "rm ".toList, "wipe".toList, "factory".toList,
    "uninstall".toList, "format".toList, "pm uninstall".toList,
    "recovery".toList, "bootloader".toList]

/-- Embedding of `_is_dangerous`: the lowercased command has some dangerous
keyword as a substring. -/
def _is_dangerous (cmd : List Char) : Bool :=
  DANGEROUS_KEYWORDS.any (fun k => containsSub k (lowerL cmd))

/-- Accumulator-based embedding of Python `str.split()` with no argument:
split on whitespace runs, discarding empty words. -/
def splitWsGo : List Char → List Char → List (List Char)
  | cur, [] => if cur = [] then [] else [cur.reverse]
  | cur, c :: r =>
    if wsChar c then
      (if cur = [] then splitWsGo [] r else cur.reverse :: splitWsGo [] r)
    else splitWsGo (c :: cur) r

/-- Embedding of Python `str.split()` with no argument. -/
def pySplitWs (l : List Char) : List (List Char) := splitWsGo [] l

/-- The adb argument list built by `send_manual_command` for a command. -/
def manualArgs (advanced : Bool) (cmd : List Char) : List (List Char) :=
  if advanced then pySplitWs cmd else "shell".toList :: pySplitWs cmd

/-- Action taken by `send_manual_command` before any worker thread starts. -/
inductive ManualAction
  | warnNotConnected
  | ignoredEmpty
  | cancelled
  | run (args : List (List Char))
deriving DecidableEq

/-- Embedding of the decision structure of `send_manual_command`: the
connection gate, the empty-command gate, the dangerous-command confirmation
dialog, and finally the adb invocation. -/
def send_manual_command_decision (connected : Bool) (raw : List Char)
    (advanced : Bool) (userConfirms : Bool) : ManualAction :=
  if connected = false then .warnNotConnected
  else if pyStrip raw = [] then .ignoredEmpty
  else if _is_dangerous (pyStrip raw) && !userConfirms then .cancelled
  else .run (manualArgs advanced (pyStrip raw))

/-- C6.  `_is_dangerous` holds exactly when the lowercased command has one of
the nine dangerous keywords as a substring; and, when connected with a
nonempty command, a command flagged dangerous runs exactly when the user
confirms, while a command not flagged runs unconditionally. -/
theorem c6_dangerous_command_gating (cmd raw : List Char)
    (advanced userConfirms : Bool) :
    (_is_dangerous cmd = true ↔
      ∃ k ∈ ["reboot".toList, "rm ".toList, "wipe".toList, "factory".toList,
        "uninstall".toList, "format".toList, "pm uninstall".toList,
        "recovery".toList, "bootloader".toList],
        ∃ a b, lowerL cmd = a ++ (k ++ b)) ∧
    (pyStrip raw ≠ [] →
      (_is_dangerous (pyStrip raw) = true →
        (send_manual_command_decision true raw advanced userConfirms =
            ManualAction.run (manualArgs advanced (pyStrip raw)) ↔
          userConfirms = true)) ∧
      (_is_dangerous (pyStrip raw) = false →
        send_manual_command_decision true raw advanced userConfirms =
          ManualAction.run (manualArgs advanced (pyStrip raw)))) := by
  constructor
  · simp only [_is_dangerous, DANGEROUS_KEYWORDS, List.any_eq_true, containsSub_iff]
  · intro hne
    have hconn : ¬(true = false) := by simp
    constructor
    · intro hdang
      unfold send_manual_command_decision
      rw [if_neg hconn, if_neg hne]
      cases userConfirms
      · rw [if_pos (by rw [hdang]; rfl)]
        constructor
        · intro hfalse
          exact absurd hfalse (by simp)
        · intro hfalse
          exact absurd hfalse (by simp)
      · rw [if_neg (by rw [hdang]; simp)]
        exact ⟨fun _ => rfl, fun _ => rfl⟩
    · intro hnd
      unfold send_manual_command_decision
      rw [if_neg hconn, if_neg hne, if_neg (by rw [hnd]; simp)]

theorem c6_dangerous_command_gating_witness :
    (send_manual_command_decision true "reboot".toList false true =
        ManualAction.run (manualArgs false (pyStrip "reboot".toList)) ↔
      true = true) ∧
      send_manual_command_decision true "input text hi".toList false false =
        ManualAction.run (manualArgs false (pyStrip "input text hi".toList)) :=
  ⟨((c6_dangerous_command_gating "reboot".toList "reboot".toList false true).2
      (by decide)).1 (by decide),
    ((c6_dangerous_command_gating "input text hi".toList "input text hi".toList
      false false).2 (by decide)).2 (by decide)⟩

/-- One iteration's environment for the keep-alive loop: the value the
45-second wait on the stop event returns, whether the UI still reports a
connection, and whether the adb poll succeeds. -/
structure KAIter where
  stopSet : Bool
  connected : Bool
  pollOk : Bool

/-- Observable events of the keep-alive loop: a (up to) 45-second wait on the
stop event, or one adb keyevent poll. -/
inductive KAEvent
  | waited (seconds : Nat)
  | polled
deriving DecidableEq

/-- Embedding of the `loop` body of `_start_keep_alive`: every iteration
first waits on the stop event with a 45-second timeout; when the wait reports
the stop event set the loop exits, otherwise it exits on a lost connection,
polls adb once, and exits when the poll fails. -/
def keep_alive_loop : List KAIter → List KAEvent
  | [] => []
  | it :: rest =>
    KAEvent.waited 45 ::
      (if it.stopSet then []
       else if it.connected = false then []
       else KAEvent.polled :: (if it.pollOk then keep_alive_loop rest else []))

/-- Number of adb polls in an event trace. -/
def countPolled : List KAEvent → Nat
  | [] => 0
  | KAEvent.polled :: r => countPolled r + 1
  | KAEvent.waited _ :: r => countPolled r

lemma keep_alive_loop_head (sched : List KAIter) :
    keep_alive_loop sched = [] ∨
      ∃ tl, keep_alive_loop sched = KAEvent.waited 45 :: tl := by
  cases sched with
  | nil => exact Or.inl rfl
  | cons it rest => exact Or.inr ⟨_, rfl⟩

lemma countPolled_keep_alive_le (sched : List KAIter) :
    countPolled (keep_alive_loop sched) ≤ sched.length := by
  induction sched with
  | nil => simp [keep_alive_loop, countPolled]
  | cons it rest ih =>
    unfold keep_alive_loop
    by_cases h1 : it.stopSet = true
    · simp [h1, countPolled]
    · rw [if_neg h1]
      by_cases h2 : it.connected = false
      · simp [h2, countPolled]
      · rw [if_neg h2]
        by_cases h3 : it.pollOk = true
        · rw [if_pos h3]
          simp only [countPolled, List.length_cons]
          omega
        · rw [if_neg h3]
          simp [countPolled]

lemma keep_alive_chain (sched : List KAIter) :
    List.Chain' (fun a b => b = KAEvent.polled → a = KAEvent.waited 45)
      (keep_alive_loop sched) := by
  induction sched with
  | nil => simp [keep_alive_loop]
  | cons it rest ih =>
    unfold keep_alive_loop
    by_cases h1 : it.stopSet = true
    · simp [h1]
    · rw [if_neg h1]
      by_cases h2 : it.connected = false
      · simp [h2]
      · rw [if_neg h2]
        by_cases h3 : it.pollOk = true
        · rw [if_pos h3]
          rw [List.chain'_cons]
          refine ⟨fun _ => rfl, ?_⟩
          rcases keep_alive_loop_head rest with hr | ⟨tl, hr⟩
          · rw [hr]
            simp
          · rw [hr] at ih ⊢
            rw [List.chain'_cons]
            exact ⟨fun hfalse => absurd hfalse (by simp), ih⟩
        · rw [if_neg h3]
          rw [List.chain'_cons]
          exact ⟨fun _ => rfl, by simp⟩

/-- C8.  Once the stop event is observed set at iteration `i`, the keep-alive
loop issues at most `i` adb polls (none at or after the stop); every event of
the loop is either a 45-second wait or a poll; and every poll is immediately
preceded by a 45-second wait on the stop event. -/
theorem c8_keep_alive_polling (sched : List KAIter) (i : Nat)
    (hstop : (sched.getD i ⟨true, true, true⟩).stopSet = true) :
    countPolled (keep_alive_loop sched) ≤ i ∧
      (keep_alive_loop sched).all
        (fun ev => decide (ev = KAEvent.waited 45 ∨ ev = KAEvent.polled)) = true ∧
      List.Chain' (fun a b => b = KAEvent.polled → a = KAEvent.waited 45)
        (keep_alive_loop sched) := by
  refine ⟨?_, ?_, keep_alive_chain sched⟩
  · induction sched generalizing i with
    | nil => simp [keep_alive_loop, countPolled]
    | cons it rest ih =>
      cases i with
      | zero =>
        rw [List.getD_cons_zero] at hstop
        unfold keep_alive_loop
        rw [if_pos hstop]
        simp [countPolled]
      | succ j =>
        rw [List.getD_cons_succ] at hstop
        unfold keep_alive_loop
        by_cases h1 : it.stopSet = true
        · simp [h1, countPolled]
        · rw [if_neg h1]
          by_cases h2 : it.connected = false
          · simp [h2, countPolled]
          · rw [if_neg h2]
            by_cases h3 : it.pollOk = true
            · rw [if_pos h3]
              simp only [countPolled]
              have := ih j hstop
              omega
            · rw [if_neg h3]
              simp only [countPolled]
              omega
  · rw [List.all_eq_true]
    intro ev hev
    rw [decide_eq_true_iff]
    clear hstop
    induction sched with
    | nil => simp [keep_alive_loop] at hev
    | cons it rest ih =>
      unfold keep_alive_loop at hev
      rcases List.mem_cons.mp hev with h | h
      · exact Or.inl h
      · by_cases h1 : it.stopSet = true
        · rw [if_pos h1] at h
          simp at h
        · rw [if_neg h1] at h
          by_cases h2 : it.connected = false
          · rw [if_pos h2] at h
            simp at h
          · rw [if_neg h2] at h
            rcases List.mem_cons.mp h with h' | h'
            · exact Or.inr h'
            · by_cases h3 : it.pollOk = true
              · rw [if_pos h3] at h'
                exact ih h'
              · rw [if_neg h3] at h'
                simp at h'

/-- Schedule whose second iteration observes the stop event set. -/
def c8Sched : List KAIter := [⟨false, true, true⟩, ⟨true, true, true⟩]

theorem c8_keep_alive_polling_witness :
    countPolled (keep_alive_loop c8Sched) ≤ 1 :=
  (c8_keep_alive_polling c8Sched 1 (by decide)).1

/-- The marker Python literal `"\tunauthorized"`. -/
def TAB_UNAUTHORIZED : List Char := "\tunauthorized".toList

/-- The marker Python literal `"\tdevice"`. -/
def TAB_DEVICE : List Char := "\tdevice".toList

/-- The line scan of `device_authorized`: the first line with the
unauthorized marker answers false, the first line with the device marker
answers true, and the unauthorized test runs first on every line. -/
def scanDeviceLines : List (List Char) → Bool
  | [] => false
  | l :: rest =>
    if containsSub TAB_UNAUTHORIZED l then false
    else if containsSub TAB_DEVICE l then true
    else scanDeviceLines rest

/-- Embedding of `device_authorized`, parameterised by the result of
`run_adb_command(["devices"])`: the success flag and the stripped stdout.
Lines are modelled by splitting on the newline character. -/
def device_authorized (ok : Bool) (out : List Char) : Bool :=
  if ok = false then false else scanDeviceLines (splitOnChar '\n' out)

/-- Device authorization as the claim words it: the command succeeded and
the first line containing either marker contains the device marker. -/
def device_authorized_claim (ok : Bool) (out : List Char) : Bool :=
  if ok = false then false
  else
    match (splitOnChar '\n' out).find?
        (fun l => containsSub TAB_UNAUTHORIZED l || containsSub TAB_DEVICE l) with
    | some l => containsSub TAB_DEVICE l
    | none => false

/-- Device authorization with the amended reading: the first line containing
either marker contains the device marker and not the unauthorized marker. -/
def device_authorized_amended (ok : Bool) (out : List Char) : Bool :=
  if ok = false then false
  else
    match (splitOnChar '\n' out).find?
        (fun l => containsSub TAB_UNAUTHORIZED l || containsSub TAB_DEVICE l) with
    | some l => containsSub TAB_DEVICE l && !containsSub TAB_UNAUTHORIZED l
    | none => false

/-- C10 counterexample.  On a line carrying both markers the code answers
false (the unauthorized test runs first), while the claim's reading answers
true, because the first line carrying either marker does contain the device
marker. -/
theorem c10_device_authorized_counterexample :
    device_authorized true "x\tdevice\tunauthorized".toList = false ∧
      device_authorized_claim true "x\tdevice\tunauthorized".toList = true := by
  exact ⟨by decide, by decide⟩

lemma scanDeviceLines_eq_find (ls : List (List Char)) :
    scanDeviceLines ls =
      (match ls.find?
          (fun l => containsSub TAB_UNAUTHORIZED l || containsSub TAB_DEVICE l) with
        | some l => containsSub TAB_DEVICE l && !containsSub TAB_UNAUTHORIZED l
        | none => false) := by
  induction ls with
  | nil => rfl
  | cons l rest ih =>
    by_cases hu : containsSub TAB_UNAUTHORIZED l = true
    · rw [show scanDeviceLines (l :: rest) = false from by simp [scanDeviceLines, hu]]
      rw [List.find?_cons_of_pos _ (by simp [hu])]
      simp [hu]
    · by_cases hd : containsSub TAB_DEVICE l = true
      · rw [show scanDeviceLines (l :: rest) = true from by
          simp [scanDeviceLines, hu, hd]]
        rw [List.find?_cons_of_pos _ (by simp [hd])]
        simp [hu, hd]
      · rw [show scanDeviceLines (l :: rest) = scanDeviceLines rest from by
          simp [scanDeviceLines, hu, hd]]
        rw [List.find?_cons_of_neg _ (by simp [hu, hd])]
        exact ih

/-- C10 amended.  `device_authorized` answers true exactly when the command
succeeded and the first line containing either marker contains the device
marker and does not contain the unauthorized marker (equivalently, the first
line with either marker is a device line rather than an unauthorized one). -/
theorem c10_device_authorized_amended_eq (ok : Bool) (out : List Char) :
    device_authorized ok out = device_authorized_amended ok out := by
  unfold device_authorized device_authorized_amended
  cases ok
  · rfl
  · rw [if_neg (by simp), if_neg (by simp)]
    exact scanDeviceLines_eq_find (splitOnChar '\n' out)

lemma dropWhile_dropWhile (p : Char → Bool) (l : List Char) :
    (l.dropWhile p).dropWhile p = l.dropWhile p := by
  induction l with
  | nil => rfl
  | cons c r ih =>
    by_cases h : p c = true
    · rw [List.dropWhile_cons, if_pos h, ih]
    · rw [List.dropWhile_cons, if_neg h, List.dropWhile_cons, if_neg h]

lemma exists_append_dropWhile (p : Char → Bool) (l : List Char) :
    ∃ s, l = s ++ l.dropWhile p := by
  induction l with
  | nil => exact ⟨[], rfl⟩
  | cons c r ih =>
    by_cases h : p c = true
    · rcases ih with ⟨s, hs⟩
      refine ⟨c :: s, ?_⟩
      rw [List.dropWhile_cons, if_pos h, List.cons_append, ← hs]
    · refine ⟨[], ?_⟩
      rw [List.dropWhile_cons, if_neg h, List.nil_append]

lemma head_dropWhile (p : Char → Bool) (l : List Char) :
    ∀ c t, l.dropWhile p = c :: t → p c = false := by
  induction l with
  | nil =>
    intro c t h
    exact absurd h (by simp)
  | cons a r ih =>
    intro c t h
    by_cases ha : p a = true
    · rw [List.dropWhile_cons, if_pos ha] at h
      exact ih c t h
    · rw [List.dropWhile_cons, if_neg ha] at h
      injection h with h1 _
      exact h1 ▸ Bool.eq_false_iff.mpr ha

lemma rdropWs_append (l : List Char) : ∃ t, l = rdropWs l ++ t := by
  rcases exists_append_dropWhile wsChar l.reverse with ⟨s, hs⟩
  refine ⟨s.reverse, ?_⟩
  calc l = l.reverse.reverse := (List.reverse_reverse l).symm
    _ = (s ++ l.reverse.dropWhile wsChar).reverse := by rw [← hs]
    _ = (l.reverse.dropWhile wsChar).reverse ++ s.reverse := by
        rw [List.reverse_append]
    _ = rdropWs l ++ s.reverse := rfl

lemma rdropWs_rdropWs (l : List Char) : rdropWs (rdropWs l) = rdropWs l := by
  unfold rdropWs
  rw [List.reverse_reverse, dropWhile_dropWhile]

lemma ldropWs_rdropWs_ldropWs (l : List Char) :
    ldropWs (rdropWs (ldropWs l)) = rdropWs (ldropWs l) := by
  rcases rdropWs_append (ldropWs l) with ⟨t, ht⟩
  cases hr : rdropWs (ldropWs l) with
  | nil => rfl
  | cons c cs =>
    have hm : ldropWs l = c :: (cs ++ t) := by
      rw [ht, hr, List.cons_append]
    have hc : wsChar c = false := by
      have : l.dropWhile wsChar = c :: (cs ++ t) := hm
      exact head_dropWhile wsChar l c (cs ++ t) this
    show (c :: cs).dropWhile wsChar = c :: cs
    rw [List.dropWhile_cons, if_neg (by rw [hc]; simp)]

lemma pyStrip_idem (l : List Char) : pyStrip (pyStrip l) = pyStrip l := by
  show rdropWs (ldropWs (rdropWs (ldropWs l))) = rdropWs (ldropWs l)
  rw [ldropWs_rdropWs_ldropWs, rdropWs_rdropWs]

/-- State of the manual-command history: the list of entries and the history
cursor. -/
structure HistState where
  hist : List (List Char)
  index : Nat

/-- Embedding of `_push_history`: blank commands are dropped, a repeat of the
last entry only resets the cursor, otherwise the stripped command is appended
and the list truncated to its last 30 entries, with the cursor set past the
end. -/
def _push_history (s : HistState) (raw : List Char) : HistState :=
  if pyStrip raw = [] then s
  else if s.hist.getLast? = some (pyStrip raw) then { s with index := s.hist.length }
  else if 30 < (s.hist ++ [pyStrip raw]).length then
    { hist := (s.hist ++ [pyStrip raw]).drop ((s.hist ++ [pyStrip raw]).length - 30),
      index :=
        ((s.hist ++ [pyStrip raw]).drop
          ((s.hist ++ [pyStrip raw]).length - 30)).length }
  else { hist := s.hist ++ [pyStrip raw], index := (s.hist ++ [pyStrip raw]).length }

/-- Embedding of the cursor movement of `_history_up`. -/
def _history_up (s : HistState) : HistState :=
  if s.hist = [] then s
  else if 0 < s.index then { s with index := s.index - 1 } else s

/-- Embedding of the cursor movement of `_history_down`. -/
def _history_down (s : HistState) : HistState :=
  if s.hist = [] then s
  else if s.index < s.hist.length - 1 then { s with index := s.index + 1 }
  else { s with index := s.hist.length }

/-- One history operation, as triggered by the UI. -/
inductive HistOp
  | push (raw : List Char)
  | up
  | down

def histStep (s : HistState) : HistOp → HistState
  | .push raw => _push_history s raw
  | .up => _history_up s
  | .down => _history_down s

/-- The initial history state of the constructor. -/
def histInit : HistState := ⟨[], 0⟩

/-- The history state after a sequence of operations from the initial
state. -/
def runHist (ops : List HistOp) : HistState := ops.foldl histStep histInit

/-- Invariant of the history state: bounded length, cursor in range, no
blank entry, no adjacent duplicate entries. -/
def HistInv (s : HistState) : Prop :=
  s.hist.length ≤ 30 ∧ s.index ≤ s.hist.length ∧
    (∀ e ∈ s.hist, pyStrip e ≠ []) ∧
    List.Chain' (fun a b => a ≠ b) s.hist

lemma chain_drop {α : Type} (R : α → α → Prop) :
    ∀ (n : Nat) (l : List α), List.Chain' R l → List.Chain' R (l.drop n) := by
  intro n
  induction n with
  | zero => intro l h; simpa using h
  | succ m ih =>
    intro l h
    cases l with
    | nil => simp
    | cons a r =>
      rw [List.drop_succ_cons]
      exact ih r ((List.chain'_cons'.mp h).2)

lemma histInv_push (s : HistState) (raw : List Char) (h : HistInv s) :
    HistInv (_push_history s raw) := by
  obtain ⟨hlen, hidx, hmem, hch⟩ := h
  unfold _push_history
  split_ifs with h1 h2 h3
  · exact ⟨hlen, hidx, hmem, hch⟩
  · exact ⟨hlen, le_refl _, hmem, hch⟩
  all_goals
    have hcmd : pyStrip (pyStrip raw) ≠ [] := by rw [pyStrip_idem]; exact h1
    have hmem' : ∀ e ∈ s.hist ++ [pyStrip raw], pyStrip e ≠ [] := by
      intro e he
      rcases List.mem_append.mp he with he | he
      · exact hmem e he
      · rw [List.mem_singleton.mp he]
        exact hcmd
    have hch' : List.Chain' (fun a b => a ≠ b) (s.hist ++ [pyStrip raw]) := by
      rw [List.chain'_append]
      refine ⟨hch, List.chain'_singleton _, ?_⟩
      intro x hx y hy
      rw [Option.mem_def] at hx
      simp only [List.head?_cons, Option.mem_def, Option.some.injEq] at hy
      intro hxy
      apply h2
      rw [hx, hxy, hy]
    have hlapp : (s.hist ++ [pyStrip raw]).length = s.hist.length + 1 := by
      rw [List.length_append, List.length_singleton]
  · refine ⟨?_, le_refl _, ?_, ?_⟩
    · rw [List.length_drop]
      omega
    · intro e he
      exact hmem' e (List.drop_subset _ _ he)
    · exact chain_drop _ _ _ hch'
  · refine ⟨?_, le_refl _, hmem', hch'⟩
    show (s.hist ++ [pyStrip raw]).length ≤ 30
    omega

lemma histInv_up (s : HistState) (h : HistInv s) : HistInv (_history_up s) := by
  obtain ⟨hlen, hidx, hmem, hch⟩ := h
  unfold _history_up
  split_ifs with h1 h2
  · exact ⟨hlen, hidx, hmem, hch⟩
  · exact ⟨hlen, by simp only; omega, hmem, hch⟩
  · exact ⟨hlen, hidx, hmem, hch⟩

lemma histInv_down (s : HistState) (h : HistInv s) : HistInv (_history_down s) := by
  obtain ⟨hlen, hidx, hmem, hch⟩ := h
  unfold _history_down
  split_ifs with h1 h2
  · exact ⟨hlen, hidx, hmem, hch⟩
  · exact ⟨hlen, by simp only; omega, hmem, hch⟩
  · exact ⟨hlen, le_refl _, hmem, hch⟩

lemma histInv_run (ops : List HistOp) :
    ∀ s : HistState, HistInv s → HistInv (ops.foldl histStep s) := by
  induction ops with
  | nil => intro s h; exact h
  | cons op rest ih =>
    intro s h
    rw [List.foldl_cons]
    refine ih (histStep s op) ?_
    cases op with
    | push raw => exact histInv_push s raw h
    | up => exact histInv_up s h
    | down => exact histInv_down s h

/-- C9.  After any sequence of push, up and down operations from the initial
state, the history holds at most 30 entries, the cursor lies between 0 and
the length, every stored entry is nonblank (so a blank command was never
appended), and no two adjacent entries are equal (so a command equal to the
last entry was never appended again). -/
theorem c9_history_invariants (ops : List HistOp) :
    (runHist ops).hist.length ≤ 30 ∧
      (runHist ops).index ≤ (runHist ops).hist.length ∧
      (runHist ops).hist.all (fun e => !(pyStrip e).isEmpty) = true ∧
      List.Chain' (fun a b => a ≠ b) (runHist ops).hist := by
  have hinv : HistInv (runHist ops) := by
    apply histInv_run
    exact ⟨by simp [histInit], by simp [histInit], by simp [histInit],
      by simp [histInit]⟩
  obtain ⟨hlen, hidx, hmem, hch⟩ := hinv
  refine ⟨hlen, hidx, ?_, hch⟩
  rw [List.all_eq_true]
  intro e he
  cases hp : pyStrip e with
  | nil => exact absurd hp (hmem e he)
  | cons a t => rfl

end FirestickRemote
